import Mathlib

/-!
# The CFL step chooser of `src/Time/StepChoosers/Cfl.hpp`

`Cfl::operator()` works on C++ `double`s.  Its behaviour at zero speed, at an
unset safety factor and at zero grid spacing is decided by the IEEE 754
special values, and the concrete scenario by rounding, so the development
starts with an executable model of binary64 (round to nearest, ties to even,
no trapping) and embeds the chooser on top of it.
-/

namespace Spectre

/-! ## IEEE 754 binary64 -/

/-- A C++ `double`: the sign bit, the 11-bit biased exponent and the 52-bit
fraction of an IEEE 754 binary64 datum. -/
structure Double where
  sign : Bool
  expo : Fin 2048
  frac : Fin (2 ^ 52)
  deriving DecidableEq

namespace Double

/-- Builds a double from field values, reduced into their bit widths. -/
def ofFields (s : Bool) (e f : Nat) : Double :=
  ⟨s, ⟨e % 2048, Nat.mod_lt _ (by decide)⟩, ⟨f % 2 ^ 52, Nat.mod_lt _ (by decide)⟩⟩

/-- Exponent all ones and a non-zero fraction: not a number. -/
def isNaN (x : Double) : Bool := decide (x.expo.val = 2047) && decide (x.frac.val ≠ 0)

/-- Exponent all ones and a zero fraction: an infinity. -/
def isInf (x : Double) : Bool := decide (x.expo.val = 2047) && decide (x.frac.val = 0)

/-- Both zeros, `+0.0` and `-0.0`. -/
def isZero (x : Double) : Bool := decide (x.expo.val = 0) && decide (x.frac.val = 0)

/-- Same as `std::isfinite`: neither an infinity nor a NaN. -/
def isFinite (x : Double) : Bool := decide (x.expo.val < 2047)

/-- The magnitude of a double that is not a NaN, in units of `2^-1074` (the
least subnormal).  Subnormals are their fraction, normals are
`(2^52 + frac) * 2^(expo - 1)`, and the infinities come out as `2^2098`,
which is `2^1024` in these units. -/
def mag (x : Double) : Nat :=
  if x.expo.val = 0 then x.frac.val else (2 ^ 52 + x.frac.val) * 2 ^ (x.expo.val - 1)

/-- The signed value of a double that is not a NaN, in units of `2^-1074`. -/
def toInt (x : Double) : Int := if x.sign then -(x.mag : Int) else (x.mag : Int)

/-- The infinity of the given sign. -/
def inf (s : Bool) : Double := ⟨s, ⟨2047, by decide⟩, ⟨0, by decide⟩⟩

/-- The zero of the given sign. -/
def zero (s : Bool) : Double := ⟨s, ⟨0, by decide⟩, ⟨0, by decide⟩⟩

/-- The NaN an invalid operation delivers (the x86-64 "real indefinite",
`0xFFF8000000000000`).  IEEE 754 leaves its sign and payload open; no
statement below depends on them. -/
def defaultNaN : Double := ⟨true, ⟨2047, by decide⟩, ⟨2 ^ 51, by decide⟩⟩

/-- The value of `std::numeric_limits<double>::signaling_NaN()`
(`0x7FF4000000000000`). -/
def signaling_NaN : Double := ⟨false, ⟨2047, by decide⟩, ⟨2 ^ 50, by decide⟩⟩

/-- Sets the quiet bit (bit 51 of the fraction): what an arithmetic operation
returns for a NaN operand when exceptions are masked. -/
def quiet (x : Double) : Double :=
  { x with frac := ⟨if x.frac.val < 2 ^ 51 then x.frac.val + 2 ^ 51 else x.frac.val, by
      have h := x.frac.isLt
      split <;> omega⟩ }

/-- The double of sign `s` and magnitude `m * 2^e` units, for a significand
`m ≤ 2^53` that is normalised (`2^52 ≤ m`) unless `e = 0`.  A magnitude of
`2^1024` or more overflows to the infinity. -/
def ofScaled (s : Bool) (m e : Nat) : Double :=
  if m < 2 ^ 52 then ofFields s 0 m
  else if m < 2 ^ 53 then (if 2046 ≤ e then inf s else ofFields s (e + 1) (m - 2 ^ 52))
  else (if 2045 ≤ e then inf s else ofFields s (e + 2) 0)

/-- The position of the leading bit of `n`, by halving at most `fuel` times. -/
def floorLog2Aux : Nat → Nat → Nat
  | 0, _ => 0
  | fuel + 1, n => if n < 2 then 0 else floorLog2Aux fuel (n / 2) + 1

/-- The position of the leading bit: `2^(floorLog2 n) ≤ n < 2^(floorLog2 n + 1)`
for `n ≠ 0`. -/
def floorLog2 (n : Nat) : Nat := floorLog2Aux n n

/-- The exponent of the spacing of the doubles around a magnitude whose
integer part is `n` units: the spacing is one unit below `2^53` units (the
subnormals and the first binade) and doubles with every further binade. -/
def binade (n : Nat) : Nat := if n < 2 ^ 53 then 0 else floorLog2 n - 52

/-- The quotient `a / (b * 2^e)` rounded to the nearest integer, ties to the
even one. -/
def significand (a b e : Nat) : Nat :=
  let c := b * 2 ^ e
  let q := a / c
  let r := a % c
  if 2 * r < c then q else if c < 2 * r then q + 1 else if q % 2 = 0 then q else q + 1

/-- Rounds the exact magnitude `a / b` (in units of `2^-1074`) to the nearest
double of sign `s`, ties to the even significand: the rounding of every
binary64 operation in the default rounding mode. -/
def roundNearestEven (s : Bool) (a b : Nat) : Double :=
  let e := binade (a / b)
  ofScaled s (significand a b e) e

/-- The rounding of `a / b` before the overflow check, as a magnitude: the
significand times the spacing. -/
def roundMag (a b : Nat) : Nat := significand a b (binade (a / b)) * 2 ^ binade (a / b)

/-- The C++ `x * y` on doubles. -/
def mul (x y : Double) : Double :=
  if x.isNaN then x.quiet
  else if y.isNaN then y.quiet
  else if (x.isInf && y.isZero) || (x.isZero && y.isInf) then defaultNaN
  else if x.isInf || y.isInf then inf (xor x.sign y.sign)
  else roundNearestEven (xor x.sign y.sign) (x.mag * y.mag) (2 ^ 1074)

/-- The C++ `x / y` on doubles. -/
def div (x y : Double) : Double :=
  if x.isNaN then x.quiet
  else if y.isNaN then y.quiet
  else if (x.isInf && y.isInf) || (x.isZero && y.isZero) then defaultNaN
  else if x.isInf || y.isZero then inf (xor x.sign y.sign)
  else if y.isInf then zero (xor x.sign y.sign)
  else roundNearestEven (xor x.sign y.sign) (x.mag * 2 ^ 1074) y.mag

/-- The C++ `x <= y` on doubles: false as soon as one side is a NaN, and the
two zeros compare equal. -/
def le (x y : Double) : Bool := !x.isNaN && !y.isNaN && decide (x.toInt ≤ y.toInt)

/-- The C++ `x < y` on doubles. -/
def lt (x y : Double) : Bool := !x.isNaN && !y.isNaN && decide (x.toInt < y.toInt)

/-- The function `abs` on a double: clears the sign bit. -/
def abs (x : Double) : Double := { x with sign := false }

/-- Unary minus: flips the sign bit. -/
def neg (x : Double) : Double := { x with sign := !x.sign }

/-- The function `std::copysign(x, y)`: the magnitude of `x` with the sign
bit of `y`. -/
def copysign (x y : Double) : Double := { x with sign := y.sign }

/-- The conversion of a non-negative integer to double (exact below `2^53`,
rounded to nearest above). -/
def ofNat (n : Nat) : Double := roundNearestEven false (n * 2 ^ 1074) 1

/-- The double a decimal literal `num / den` denotes (the nearest one). -/
def ofRatio (num den : Nat) : Double := roundNearestEven false (num * 2 ^ 1074) den

/-- The 64-bit pattern of a double. -/
def toBits (x : Double) : Nat :=
  (if x.sign then 2 ^ 63 else 0) + x.expo.val * 2 ^ 52 + x.frac.val

/-- The double of a 64-bit pattern. -/
def ofBits (n : Nat) : Double := ofFields (decide (n / 2 ^ 63 % 2 = 1)) (n / 2 ^ 52) n

/-- The conversion of a `size_t` (64 bits) to double. -/
def ofSizeT (n : Nat) : Double := ofNat (n % 2 ^ 64)

/-- The eight bytes of the object representation, least significant first. -/
def toBytes (x : Double) : List Nat :=
  (List.range 8).map fun i => x.toBits / 256 ^ i % 256

/-- The 64-bit pattern a list of bytes holds, least significant first. -/
def bitsOfBytes : List Nat → Nat
  | [] => 0
  | b :: bs => b % 256 + 256 * bitsOfBytes bs

/-- The double whose object representation is the given bytes. -/
def ofBytes (bs : List Nat) : Double := ofBits (bitsOfBytes bs)

end Double

/-! ## The types `Cfl.hpp` only uses -/

/-- The abstract `TimeStepper`, by the one virtual member `Cfl` calls: the
value `stable_step()` returns. -/
structure TimeStepper where
  stable_step : Double

/-- Modelled from the spec: `TimeStepRequest` (its header,
`Time/TimeStepRequest.hpp`, is not among the sources).  The spec's step
request carries the goal `size_goal`; it is the one member `Cfl::operator()`
initialises, and the only one kept here. -/
structure TimeStepRequest where
  size_goal : Double
  deriving DecidableEq

/-- The `System` template parameter of `Cfl`, by the one member `Cfl` reads,
the `static constexpr size_t volume_dim`. -/
structure System where
  volume_dim : Nat

/-- The `NewtonianEuler::System<Dim, _>` of `System.hpp`: `volume_dim = Dim`. -/
def NewtonianEuler.System (Dim : Nat) : System := ⟨Dim⟩

namespace PUP

/-- Modelled from the spec: the serializer `PUP::er` of `pup.h`, which is not
among the sources.  The spec's snapshot is a byte sequence and its restore
reads that sequence back; a `PUP::er` is accordingly either sizing, packing
(the bytes written so far) or unpacking (the bytes still to read). -/
inductive er where
  | sizer (size : Nat)
  | packer (written : List Nat)
  | unpacker (rest : List Nat)
  deriving DecidableEq

/-- Modelled from the spec: `p | x` for a `double x` (`pup.h` is not among
the sources): sizing counts eight bytes, packing appends the eight bytes of
`x`, unpacking replaces `x` by the double held in the next eight bytes.
Reading past the end of the buffer has no defined result (`none`). -/
def er.pipe (p : er) (x : Double) : Option (er × Double) :=
  match p with
  | .sizer n => some (.sizer (n + 8), x)
  | .packer w => some (.packer (w ++ x.toBytes), x)
  | .unpacker r =>
    if 8 ≤ r.length then some (.unpacker (r.drop 8), Double.ofBytes (r.take 8)) else none

end PUP

/-! ## `StepChoosers::Cfl` -/

/-- The class `Cfl`: its one data member. -/
structure Cfl where
  safety_factor_ : Double
  deriving DecidableEq

namespace Cfl

/-- The constructor `Cfl() = default`: the member keeps its default
initialiser, `std::numeric_limits<double>::signaling_NaN()`. -/
def default : Cfl := ⟨Double.signaling_NaN⟩

/-- The constructor `explicit Cfl(CkMigrateMessage*) {}`: nothing is set, so
the member again has its default initialiser. -/
def migrate : Cfl := ⟨Double.signaling_NaN⟩

/-- The constructor `explicit Cfl(const double safety_factor)`. -/
def ofSafetyFactor (safety_factor : Double) : Cfl := ⟨safety_factor⟩

/-- The local constant `step_size` of `operator()`, for the system `sys` the
class is instantiated with. -/
def step_size (self : Cfl) (sys : System) (minimum_grid_spacing : Double)
    (time_stepper : TimeStepper) (speed : Double) : Double :=
  let time_stepper_stability_factor := time_stepper.stable_step
  Double.div
    (Double.mul (Double.mul self.safety_factor_ time_stepper_stability_factor)
      minimum_grid_spacing)
    (Double.mul speed (Double.ofSizeT sys.volume_dim))

/-- The member `operator()`: the request with `size_goal` set and the flag
that accepts or rejects the step taken. -/
def call (self : Cfl) (sys : System) (minimum_grid_spacing : Double)
    (time_stepper : TimeStepper) (speed last_step : Double) : TimeStepRequest × Bool :=
  let step_size := self.step_size sys minimum_grid_spacing time_stepper speed
  (⟨Double.copysign step_size last_step⟩, Double.le (Double.abs last_step) step_size)

/-- The spec's `bound = safety_factor * σ * h / (v * d)`, read in double
arithmetic with the dimension `d` converted to double. -/
def specBound (safety_factor σ h v : Double) (d : Nat) : Double :=
  Double.div (Double.mul (Double.mul safety_factor σ) h) (Double.mul v (Double.ofSizeT d))

/-- The spec's `goal = copysign(bound, Δt_prev)`. -/
def specGoal (bound Δt_prev : Double) : Double := Double.copysign bound Δt_prev

/-- The spec's `accept = |Δt_prev| <= bound`. -/
def specAccept (bound Δt_prev : Double) : Bool := Double.le (Double.abs Δt_prev) bound

/-- The member `uses_local_data`. -/
def uses_local_data (_self : Cfl) : Bool := true

/-- The member `can_be_delayed`. -/
def can_be_delayed (_self : Cfl) : Bool := true

/-- The member `pup`: `p | safety_factor_`. -/
def pup (self : Cfl) (p : PUP.er) : Option (PUP.er × Cfl) :=
  match p.pipe self.safety_factor_ with
  | some (p1, x) => some (p1, { self with safety_factor_ := x })
  | none => none

/-- The spec's `snapshot(x)`: the bytes `pup` writes through a packing
`PUP::er` that starts empty. -/
def snapshot (x : Cfl) : Option (List Nat) :=
  match x.pup (.packer []) with
  | some (.packer written, _) => some written
  | _ => none

/-- The spec's `restore`: a chooser made by the migration constructor, then
`pup` through an unpacking `PUP::er` over the bytes. -/
def restore (bytes : List Nat) : Option Cfl :=
  match Cfl.migrate.pup (.unpacker bytes) with
  | some (_, y) => some y
  | none => none

end Cfl

/-! ## Facts about the binary64 operations -/

namespace Double

theorem isNaN_quiet (x : Double) (h : x.isNaN = true) : x.quiet.isNaN = true := by
  have hf := x.frac.isLt
  simp only [isNaN, quiet, Bool.and_eq_true, decide_eq_true_eq, ne_eq] at h ⊢
  refine ⟨h.1, ?_⟩
  split <;> omega

theorem isNaN_mul_left (x y : Double) (h : x.isNaN = true) : (mul x y).isNaN = true := by
  simp only [mul, h, if_true]
  exact isNaN_quiet x h

theorem isNaN_div_left (x y : Double) (h : x.isNaN = true) : (div x y).isNaN = true := by
  simp only [div, h, if_true]
  exact isNaN_quiet x h

theorem isNaN_copysign (x y : Double) : (copysign x y).isNaN = x.isNaN := rfl

theorem isNaN_abs (x : Double) : (abs x).isNaN = x.isNaN := rfl

theorem mag_abs (x : Double) : (abs x).mag = x.mag := rfl

theorem abs_neg (x : Double) : abs (neg x) = abs x := rfl

theorem le_of_isNaN_right (x y : Double) (h : y.isNaN = true) : le x y = false := by
  simp [le, h]

theorem mag_eq_zero_iff (x : Double) : x.mag = 0 ↔ x.isZero = true := by
  unfold mag isZero
  by_cases h : x.expo.val = 0
  · simp [h]
  · have : 0 < (2 ^ 52 + x.frac.val) * 2 ^ (x.expo.val - 1) := by positivity
    simp only [h, if_false, decide_False, Bool.false_and]
    constructor
    · intro h0; omega
    · intro h0; cases h0

theorem toInt_zero (s : Bool) : (zero s).toInt = 0 := by
  cases s <;> simp [zero, toInt, mag]

theorem isNaN_zero (s : Bool) : (zero s).isNaN = false := by
  simp [zero, isNaN]

theorem zero_lt_iff (x : Double) :
    lt (zero false) x = true ↔ x.isNaN = false ∧ x.sign = false ∧ x.isZero = false := by
  have hz := mag_eq_zero_iff x
  simp only [lt, isNaN_zero, toInt_zero, Bool.and_eq_true, Bool.not_eq_true',
    decide_eq_true_eq, Bool.not_false, true_and]
  unfold toInt
  cases hs : x.sign <;> cases hn : x.isNaN <;> cases hzz : x.isZero <;> simp_all
  omega

theorem lt_zero_iff (x : Double) :
    lt x (zero false) = true ↔ x.isNaN = false ∧ x.sign = true ∧ x.isZero = false := by
  have hz := mag_eq_zero_iff x
  simp only [lt, isNaN_zero, toInt_zero, Bool.and_eq_true, Bool.not_eq_true',
    decide_eq_true_eq, Bool.not_false, true_and]
  unfold toInt
  cases hs : x.sign <;> cases hn : x.isNaN <;> cases hzz : x.isZero <;> simp_all
  omega

theorem zero_le_iff (x : Double) :
    le (zero false) x = true ↔ x.isNaN = false ∧ (x.sign = false ∨ x.isZero = true) := by
  have hz := mag_eq_zero_iff x
  simp only [le, isNaN_zero, toInt_zero, Bool.and_eq_true, Bool.not_eq_true',
    decide_eq_true_eq, Bool.not_false, true_and]
  unfold toInt
  cases hs : x.sign <;> cases hn : x.isNaN <;> cases hzz : x.isZero <;> simp_all

theorem toBits_lt (x : Double) : x.toBits < 2 ^ 64 := by
  have h1 := x.expo.isLt
  have h2 := x.frac.isLt
  unfold toBits
  split <;> omega

theorem ofBits_toBits (x : Double) : ofBits (toBits x) = x := by
  obtain ⟨s, ⟨e, he⟩, ⟨f, hf⟩⟩ := x
  have hf2 : f < 4503599627370496 := by simpa using hf
  simp only [ofBits, ofFields, toBits, mk.injEq, Fin.mk.injEq]
  norm_num
  cases s <;> simp <;> omega

theorem toBytes_length (x : Double) : x.toBytes.length = 8 := by
  simp [toBytes]

theorem bitsOfBytes_toBytes (x : Double) : bitsOfBytes (toBytes x) = toBits x := by
  have h := toBits_lt x
  simp only [toBytes, List.range, List.range.loop, List.map, bitsOfBytes]
  norm_num
  omega

theorem ofBytes_toBytes (x : Double) : ofBytes (toBytes x) = x := by
  rw [ofBytes, bitsOfBytes_toBytes, ofBits_toBits]

/-! ### Rounding -/

theorem floorLog2Aux_spec : ∀ (fuel n : Nat), n ≤ fuel → 0 < n →
    2 ^ floorLog2Aux fuel n ≤ n ∧ n < 2 ^ (floorLog2Aux fuel n + 1)
  | 0, n, h1, h2 => by omega
  | fuel + 1, n, h1, h2 => by
    unfold floorLog2Aux
    by_cases hn : n < 2
    · rw [if_pos hn]
      constructor
      · simpa using h2
      · simpa using hn
    · rw [if_neg hn]
      have ih := floorLog2Aux_spec fuel (n / 2) (by omega) (by omega)
      have e1 := pow_succ 2 (floorLog2Aux fuel (n / 2))
      have e2 := pow_succ 2 (floorLog2Aux fuel (n / 2) + 1)
      constructor <;> omega

theorem floorLog2_spec (n : Nat) (h : 0 < n) :
    2 ^ floorLog2 n ≤ n ∧ n < 2 ^ (floorLog2 n + 1) :=
  floorLog2Aux_spec n n le_rfl h

/-- The spacing exponent puts `n` in its binade. -/
theorem binade_spec (n : Nat) :
    (binade n = 0 ∧ n < 2 ^ 53) ∨
      (1 ≤ binade n ∧ 2 ^ (52 + binade n) ≤ n ∧ n < 2 ^ (53 + binade n)) := by
  unfold binade
  by_cases h : n < 2 ^ 53
  · left; rw [if_pos h]; exact ⟨rfl, h⟩
  · right
    rw [if_neg h]
    have hpos : 0 < n := by
      have : 0 < 2 ^ 53 := by positivity
      omega
    obtain ⟨h1, h2⟩ := floorLog2_spec n hpos
    have h53 : 53 ≤ floorLog2 n := by
      by_contra hc
      have : floorLog2 n + 1 ≤ 53 := by omega
      have := Nat.pow_le_pow_right (show 0 < 2 by decide) this
      omega
    have e1 : 52 + (floorLog2 n - 52) = floorLog2 n := by omega
    have e2 : 53 + (floorLog2 n - 52) = floorLog2 n + 1 := by omega
    rw [e1, e2]
    exact ⟨by omega, h1, h2⟩

theorem two_pow_mono {i j : Nat} (h : i ≤ j) : (2 : Nat) ^ i ≤ 2 ^ j :=
  Nat.pow_le_pow_right (by decide) h

theorem two_pow_strictMono {i j : Nat} (h : i < j) : (2 : Nat) ^ i < 2 ^ j :=
  Nat.pow_lt_pow_right (by decide) h

theorem significand_bounds (a b e : Nat) :
    a / (b * 2 ^ e) ≤ significand a b e ∧ significand a b e ≤ a / (b * 2 ^ e) + 1 := by
  unfold significand
  simp only
  split_ifs <;> omega

/-- The quotient by the spacing is a 53-bit significand, normalised above
the first binade. -/
theorem quotient_binade (a b : Nat) :
    a / (b * 2 ^ binade (a / b)) < 2 ^ 53 ∧
      (1 ≤ binade (a / b) → 2 ^ 52 ≤ a / (b * 2 ^ binade (a / b))) := by
  rw [← Nat.div_div_eq_div_mul]
  have hp : 0 < 2 ^ binade (a / b) := by positivity
  rcases binade_spec (a / b) with ⟨h0, h1⟩ | ⟨h0, h1, h2⟩
  · rw [h0]
    simp only [pow_zero, Nat.div_one]
    exact ⟨h1, fun h => by omega⟩
  · constructor
    · rw [Nat.div_lt_iff_lt_mul hp, ← pow_add]
      exact h2
    · intro _
      rw [Nat.le_div_iff_mul_le hp, ← pow_add]
      exact h1

theorem significand_binade (a b : Nat) :
    significand a b (binade (a / b)) ≤ 2 ^ 53 ∧
      (binade (a / b) = 0 ∨ 2 ^ 52 ≤ significand a b (binade (a / b))) := by
  obtain ⟨h1, h2⟩ := quotient_binade a b
  obtain ⟨h3, h4⟩ := significand_bounds a b (binade (a / b))
  constructor
  · omega
  · by_cases h : binade (a / b) = 0
    · exact Or.inl h
    · right
      have := h2 (by omega)
      omega

theorem mag_inf (s : Bool) : (inf s).mag = 2 ^ 2098 := by
  have h : (inf s).mag = (2 ^ 52 + 0) * 2 ^ (2047 - 1) := by
    simp only [mag, inf]
    rw [if_neg (by decide)]
  rw [h, show (2098 : Nat) = 52 + (2047 - 1) from rfl, pow_add, Nat.add_zero]

theorem ofScaled_spec (s : Bool) (m e : Nat) (hm : m ≤ 2 ^ 53) (hn : e = 0 ∨ 2 ^ 52 ≤ m) :
    (ofScaled s m e).isNaN = false ∧ (ofScaled s m e).sign = s ∧
      (ofScaled s m e).mag = min (m * 2 ^ e) (2 ^ 2098) := by
  have hbig : (2 : Nat) ^ 53 * 2 ^ 2045 = 2 ^ 2098 := by rw [← pow_add]
  have hbig2 : (2 : Nat) ^ 52 * 2 ^ 2046 = 2 ^ 2098 := by rw [← pow_add]
  unfold ofScaled
  by_cases h1 : m < 2 ^ 52
  · rw [if_pos h1]
    have he : e = 0 := by omega
    subst he
    have h52 : (2 : Nat) ^ 52 ≤ 2 ^ 2098 := two_pow_mono (show 52 ≤ 2098 by decide)
    have hlt : m < 2 ^ 2098 := lt_of_lt_of_le h1 h52
    have hmod : m % 2 ^ 52 = m := Nat.mod_eq_of_lt h1
    refine ⟨?_, rfl, ?_⟩
    · simp [isNaN, ofFields]
    · simp only [mag, ofFields, Nat.zero_mod, if_true, hmod, pow_zero, mul_one]
      exact (Nat.min_eq_left hlt.le).symm
  · rw [if_neg h1]
    by_cases h2 : m < 2 ^ 53
    · rw [if_pos h2]
      by_cases h3 : 2046 ≤ e
      · rw [if_pos h3]
        refine ⟨by simp [isNaN, inf], rfl, ?_⟩
        rw [mag_inf]
        have : 2 ^ 2098 ≤ m * 2 ^ e := by
          rw [← hbig2]
          exact Nat.mul_le_mul (by omega) (two_pow_mono h3)
        exact (Nat.min_eq_right this).symm
      · rw [if_neg h3]
        have hmod : (m - 2 ^ 52) % 2 ^ 52 = m - 2 ^ 52 := Nat.mod_eq_of_lt (by omega)
        have hmod2 : (e + 1) % 2048 = e + 1 := Nat.mod_eq_of_lt (by omega)
        have hlt : m * 2 ^ e < 2 ^ 2098 := by
          rw [← hbig]
          exact Nat.mul_lt_mul_of_lt_of_le h2
            (two_pow_mono (by omega)) (by positivity)
        refine ⟨?_, rfl, ?_⟩
        · simp only [isNaN, ofFields, hmod2]
          simp
          omega
        · simp only [mag, ofFields, hmod, hmod2]
          rw [if_neg (by omega), Nat.min_eq_left hlt.le,
            show 2 ^ 52 + (m - 2 ^ 52) = m by omega, show e + 1 - 1 = e by omega]
    · rw [if_neg h2]
      have hm53 : m = 2 ^ 53 := by omega
      by_cases h3 : 2045 ≤ e
      · rw [if_pos h3]
        refine ⟨by simp [isNaN, inf], rfl, ?_⟩
        rw [mag_inf]
        have : 2 ^ 2098 ≤ m * 2 ^ e := by
          rw [← hbig, hm53]
          exact Nat.mul_le_mul le_rfl (two_pow_mono h3)
        exact (Nat.min_eq_right this).symm
      · rw [if_neg h3]
        have hmod2 : (e + 2) % 2048 = e + 2 := Nat.mod_eq_of_lt (by omega)
        have hlt : m * 2 ^ e < 2 ^ 2098 := by
          rw [← hbig, hm53]
          exact Nat.mul_lt_mul_of_le_of_lt le_rfl
            (two_pow_strictMono (show e < 2045 by omega)) (by positivity)
        refine ⟨?_, rfl, ?_⟩
        · simp only [isNaN, ofFields, hmod2]
          simp
        · simp only [mag, ofFields, hmod2, Nat.zero_mod, add_zero]
          rw [if_neg (by omega), Nat.min_eq_left hlt.le, hm53]
          rw [show e + 2 - 1 = e + 1 by omega, pow_succ 2 e, pow_succ 2 52]
          ring

theorem roundNearestEven_spec (s : Bool) (a b : Nat) :
    (roundNearestEven s a b).isNaN = false ∧ (roundNearestEven s a b).sign = s ∧
      (roundNearestEven s a b).mag = min (roundMag a b) (2 ^ 2098) := by
  obtain ⟨h1, h2⟩ := significand_binade a b
  exact ofScaled_spec s _ _ h1 h2

theorem div_le_div_cross {a c a' c' : Nat} (hc : 0 < c) (hc' : 0 < c')
    (h : a * c' ≤ a' * c) : a / c ≤ a' / c' := by
  rw [Nat.le_div_iff_mul_le hc']
  have h1 : a / c * c ≤ a := Nat.div_mul_le_self a c
  have h2 : a / c * c' * c ≤ a' * c := by
    calc a / c * c' * c = a / c * c * c' := by ring
      _ ≤ a * c' := Nat.mul_le_mul_right _ h1
      _ ≤ a' * c := h
  exact Nat.le_of_mul_le_mul_right h2 hc

theorem cross_le {x y x' y' : Nat} (hy : 0 < y) (h : x * y' ≤ x' * y) (hxy : y ≤ x) :
    y' ≤ x' := by
  by_contra hc
  have h1 : x' < y' := by omega
  have h2 : x' * y < y' * y := Nat.mul_lt_mul_of_pos_right h1 hy
  have h3 : y' * y ≤ x * y' := by
    calc y' * y = y * y' := by ring
      _ ≤ x * y' := Nat.mul_le_mul_right _ hxy
  omega

theorem cross_lt {x y x' y' : Nat} (hy' : 0 < y') (h : x * y' ≤ x' * y) (hxy : y < x) :
    y' < x' := by
  by_contra hc
  have h1 : x' ≤ y' := by omega
  have h2 : x' * y ≤ y' * y := Nat.mul_le_mul_right _ h1
  have h3 : y' * y < x * y' := by
    calc y' * y = y * y' := by ring
      _ < x * y' := Nat.mul_lt_mul_of_pos_right hxy hy'
  omega

/-- At a fixed spacing, rounding to the nearest significand is monotone in
the quotient. -/
theorem significand_mono (a b a' b' e : Nat) (hb : 0 < b) (hb' : 0 < b')
    (h : a * b' ≤ a' * b) : significand a b e ≤ significand a' b' e := by
  have hp : 0 < 2 ^ e := by positivity
  have hc : 0 < b * 2 ^ e := Nat.mul_pos hb hp
  have hc' : 0 < b' * 2 ^ e := Nat.mul_pos hb' hp
  have hcross : a * (b' * 2 ^ e) ≤ a' * (b * 2 ^ e) := by
    calc a * (b' * 2 ^ e) = a * b' * 2 ^ e := by ring
      _ ≤ a' * b * 2 ^ e := Nat.mul_le_mul_right _ h
      _ = a' * (b * 2 ^ e) := by ring
  have hq := div_le_div_cross hc hc' hcross
  obtain ⟨l1, u1⟩ := significand_bounds a b e
  obtain ⟨l2, u2⟩ := significand_bounds a' b' e
  rcases Nat.lt_or_ge (a / (b * 2 ^ e)) (a' / (b' * 2 ^ e)) with hlt | hge
  · omega
  · have heq : a / (b * 2 ^ e) = a' / (b' * 2 ^ e) := by omega
    have d1 := Nat.div_add_mod a (b * 2 ^ e)
    have d2 := Nat.div_add_mod a' (b' * 2 ^ e)
    -- the remainders are ordered like the quotients
    have hr : 2 * (a % (b * 2 ^ e)) * (b' * 2 ^ e) ≤ 2 * (a' % (b' * 2 ^ e)) * (b * 2 ^ e) := by
      rw [heq] at d1
      generalize b * 2 ^ e = c at *
      generalize b' * 2 ^ e = c' at *
      generalize a' / c' = q at *
      generalize a % c = r at *
      generalize a' % c' = r' at *
      rw [← d1, ← d2] at hcross
      have : (c * q + r) * c' = c * c' * q + r * c' := by ring
      have : (c' * q + r') * c = c * c' * q + r' * c := by ring
      have : 2 * r * c' = 2 * (r * c') := by ring
      have : 2 * r' * c = 2 * (r' * c) := by ring
      omega
    have k1 := @cross_le (2 * (a % (b * 2 ^ e))) (b * 2 ^ e) (2 * (a' % (b' * 2 ^ e)))
      (b' * 2 ^ e) hc hr
    have k2 := @cross_lt (2 * (a % (b * 2 ^ e))) (b * 2 ^ e) (2 * (a' % (b' * 2 ^ e)))
      (b' * 2 ^ e) hc' hr
    unfold significand
    simp only
    rw [← heq]
    split_ifs <;> omega

/-- Rounding to nearest is monotone: a larger exact quotient never rounds to
a smaller double. -/
theorem roundMag_mono (a b a' b' : Nat) (hb : 0 < b) (hb' : 0 < b')
    (h : a * b' ≤ a' * b) : roundMag a b ≤ roundMag a' b' := by
  have hn := div_le_div_cross hb hb' h
  unfold roundMag
  rcases Nat.lt_trichotomy (binade (a / b)) (binade (a' / b')) with hlt | heq | hgt
  · have hq := (quotient_binade a' b').2 (by omega)
    have hm' := (significand_bounds a' b' (binade (a' / b'))).1
    have hm := (significand_binade a b).1
    calc significand a b (binade (a / b)) * 2 ^ binade (a / b)
        ≤ 2 ^ 53 * 2 ^ binade (a / b) := Nat.mul_le_mul_right _ hm
      _ = 2 ^ (53 + binade (a / b)) := by rw [pow_add]
      _ ≤ 2 ^ (52 + binade (a' / b')) := two_pow_mono (by omega)
      _ = 2 ^ 52 * 2 ^ binade (a' / b') := by rw [pow_add]
      _ ≤ significand a' b' (binade (a' / b')) * 2 ^ binade (a' / b') :=
          Nat.mul_le_mul_right _ (le_trans hq hm')
  · rw [heq]
    exact Nat.mul_le_mul_right _ (significand_mono a b a' b' _ hb hb' h)
  · exfalso
    have h1 : 2 ^ (52 + binade (a / b)) ≤ a / b := by
      rcases binade_spec (a / b) with ⟨h0, -⟩ | ⟨-, h1, -⟩
      · omega
      · exact h1
    have h2 : a' / b' < 2 ^ (53 + binade (a' / b')) := by
      rcases binade_spec (a' / b') with ⟨h0, h1⟩ | ⟨-, -, h2⟩
      · rw [h0]; exact h1
      · exact h2
    have h3 : (2 : Nat) ^ (53 + binade (a' / b')) ≤ 2 ^ (52 + binade (a / b)) :=
      two_pow_mono (by omega)
    omega

theorem roundMag_zero (b : Nat) : roundMag 0 b = 0 := by
  have h0 : binade (0 / b) = 0 := by
    rw [Nat.zero_div]
    unfold binade
    rw [if_pos (by positivity)]
  unfold roundMag
  rw [h0]
  simp [significand]

theorem roundMag_self (b : Nat) (hb : 0 < b) : roundMag b b = 1 := by
  have h0 : binade (b / b) = 0 := by
    rw [Nat.div_self hb]
    unfold binade
    rw [if_pos (by norm_num)]
  unfold roundMag
  rw [h0]
  simp only [significand, pow_zero, mul_one, Nat.div_self hb, Nat.mod_self]
  rw [if_pos (by omega)]

theorem roundMag_pos (a b : Nat) (hb : 0 < b) (h : b ≤ a) : 1 ≤ roundMag a b := by
  rw [← roundMag_self b hb]
  exact roundMag_mono b b a b hb hb (Nat.mul_le_mul_right _ h)

theorem roundMag_le (a b : Nat) : roundMag a b ≤ 2 * (a / b) + 1 := by
  unfold roundMag
  have hu := (significand_bounds a b (binade (a / b))).2
  rw [← Nat.div_div_eq_div_mul] at hu
  have hp : 0 < 2 ^ binade (a / b) := by positivity
  have hq : a / b / 2 ^ binade (a / b) * 2 ^ binade (a / b) ≤ a / b := Nat.div_mul_le_self _ _
  have hs : 2 ^ binade (a / b) ≤ a / b + 1 := by
    rcases binade_spec (a / b) with ⟨h0, -⟩ | ⟨-, h1, -⟩
    · rw [h0]; simp
    · have : (2 : Nat) ^ binade (a / b) ≤ 2 ^ (52 + binade (a / b)) := two_pow_mono (by omega)
      omega
  calc significand a b (binade (a / b)) * 2 ^ binade (a / b)
      ≤ (a / b / 2 ^ binade (a / b) + 1) * 2 ^ binade (a / b) := Nat.mul_le_mul_right _ hu
    _ = a / b / 2 ^ binade (a / b) * 2 ^ binade (a / b) + 2 ^ binade (a / b) := by ring
    _ ≤ 2 * (a / b) + 1 := by omega

theorem roundMag_one : roundMag (2 ^ 1074) 1 = 2 ^ 1074 := by decide!

theorem roundNearestEven_zero (s : Bool) (b : Nat) : roundNearestEven s 0 b = zero s := by
  have h0 : binade (0 / b) = 0 := by
    rw [Nat.zero_div]
    unfold binade
    rw [if_pos (by positivity)]
  unfold roundNearestEven
  simp only [h0]
  have : significand 0 b 0 = 0 := by simp [significand]
  rw [this]
  rfl

theorem isNaN_of_isFinite (x : Double) (h : x.isFinite = true) : x.isNaN = false := by
  simp only [isFinite, decide_eq_true_eq] at h
  simp only [isNaN, Bool.and_eq_false_imp, decide_eq_true_eq]
  intro h2
  omega

theorem isInf_of_isFinite (x : Double) (h : x.isFinite = true) : x.isInf = false := by
  simp only [isFinite, decide_eq_true_eq] at h
  simp only [isInf, Bool.and_eq_false_imp, decide_eq_true_eq]
  intro h2
  omega

theorem isFinite_of_isZero (x : Double) (h : x.isZero = true) : x.isFinite = true := by
  simp only [isZero, Bool.and_eq_true, decide_eq_true_eq] at h
  simp only [isFinite, decide_eq_true_eq]
  omega

theorem isFinite_or_isInf (x : Double) (h : x.isNaN = false) :
    x.isFinite = true ∨ x.isInf = true := by
  have he := x.expo.isLt
  simp only [isNaN, Bool.and_eq_false_imp, decide_eq_true_eq, ne_eq, decide_not,
    Bool.not_eq_false', decide_eq_true_eq] at h
  simp only [isFinite, isInf, Bool.and_eq_true, decide_eq_true_eq]
  by_cases h1 : x.expo.val = 2047
  · exact Or.inr ⟨h1, h h1⟩
  · left; omega

theorem mag_of_isInf (x : Double) (h : x.isInf = true) : x.mag = 2 ^ 2098 := by
  simp only [isInf, Bool.and_eq_true, decide_eq_true_eq] at h
  unfold mag
  rw [if_neg (by omega), h.1, h.2, show (2098 : Nat) = 52 + (2047 - 1) from rfl, pow_add,
    Nat.add_zero]

theorem mag_lt_of_isFinite (x : Double) (h : x.isFinite = true) : x.mag < 2 ^ 2098 := by
  have hf : x.frac.val < 2 ^ 52 := x.frac.isLt
  simp only [isFinite, decide_eq_true_eq] at h
  have hbig : (2 : Nat) ^ 53 * 2 ^ 2045 = 2 ^ 2098 := by rw [← pow_add]
  unfold mag
  split
  · exact lt_of_lt_of_le hf (two_pow_mono (by decide))
  · rw [← hbig]
    exact Nat.mul_lt_mul_of_lt_of_le (by omega) (two_pow_mono (by omega)) (by positivity)

theorem mag_le_of_not_isNaN (x : Double) (h : x.isNaN = false) : x.mag ≤ 2 ^ 2098 := by
  rcases isFinite_or_isInf x h with h1 | h1
  · exact (mag_lt_of_isFinite x h1).le
  · exact (mag_of_isInf x h1).le

theorem isFinite_of_mag_lt (x : Double) (h : x.isNaN = false) (hm : x.mag < 2 ^ 2098) :
    x.isFinite = true := by
  rcases isFinite_or_isInf x h with h1 | h1
  · exact h1
  · rw [mag_of_isInf x h1] at hm
    omega

/-- A double that compares above zero: a number, sign bit clear, not zero. -/
theorem pos_mag (x : Double) (h : lt (zero false) x = true) :
    x.isNaN = false ∧ x.sign = false ∧ x.isZero = false ∧ 1 ≤ x.mag := by
  obtain ⟨h1, h2, h3⟩ := (zero_lt_iff x).1 h
  refine ⟨h1, h2, h3, ?_⟩
  by_contra hc
  have : x.mag = 0 := by omega
  rw [(mag_eq_zero_iff x).1 this] at h3
  cases h3

theorem ofNat_spec (n : Nat) :
    (ofNat n).isNaN = false ∧ (ofNat n).sign = false ∧
      (ofNat n).mag = min (roundMag (n * 2 ^ 1074) 1) (2 ^ 2098) :=
  roundNearestEven_spec false _ 1

theorem ofSizeT_spec (d : Nat) :
    (ofSizeT d).isNaN = false ∧ (ofSizeT d).sign = false ∧ (ofSizeT d).isFinite = true ∧
      (1 ≤ d → d < 2 ^ 64 → 2 ^ 1074 ≤ (ofSizeT d).mag) := by
  obtain ⟨h1, h2, h3⟩ := ofNat_spec (d % 2 ^ 64)
  have hlt : d % 2 ^ 64 < 2 ^ 64 := Nat.mod_lt _ (by positivity)
  have hb : roundMag (d % 2 ^ 64 * 2 ^ 1074) 1 < 2 ^ 2098 := by
    have hr := roundMag_le (d % 2 ^ 64 * 2 ^ 1074) 1
    rw [Nat.div_one] at hr
    have h4 : d % 2 ^ 64 * 2 ^ 1074 < 2 ^ 64 * 2 ^ 1074 :=
      Nat.mul_lt_mul_of_pos_right hlt (by positivity)
    have h5 : (2 : Nat) ^ 64 * 2 ^ 1074 = 2 ^ 1138 := by rw [← pow_add]
    have h6 : (2 : Nat) ^ 1138 * 2 ≤ 2 ^ 2098 := by
      rw [← pow_succ]
      exact two_pow_mono (by decide)
    omega
  refine ⟨h1, h2, ?_, ?_⟩
  · refine isFinite_of_mag_lt _ h1 ?_
    unfold ofSizeT
    rw [h3]
    exact lt_of_le_of_lt (Nat.min_le_left _ _) hb
  · intro hd1 hd2
    unfold ofSizeT
    rw [h3, Nat.mod_eq_of_lt hd2, Nat.min_eq_left]
    · have hmono : roundMag (2 ^ 1074) 1 ≤ roundMag (d * 2 ^ 1074) 1 := by
        apply roundMag_mono _ _ _ _ Nat.one_pos Nat.one_pos
        generalize (2 : Nat) ^ 1074 = p
        rw [Nat.mul_one, Nat.mul_one]
        exact Nat.le_mul_of_pos_left p hd1
      exact le_trans (le_of_eq roundMag_one.symm) hmono
    · rw [Nat.mod_eq_of_lt hd2] at hb
      exact hb.le

theorem mul_of_isZero_left (x y : Double) (hx : x.isZero = true) (hy : y.isFinite = true) :
    mul x y = zero (xor x.sign y.sign) := by
  have hxn := isNaN_of_isFinite x (isFinite_of_isZero x hx)
  have hxi := isInf_of_isFinite x (isFinite_of_isZero x hx)
  have hyn := isNaN_of_isFinite y hy
  have hyi := isInf_of_isFinite y hy
  have hm := (mag_eq_zero_iff x).2 hx
  simp only [mul, hxn, hyn, hxi, hyi, hx, Bool.false_eq_true, if_false, Bool.false_and,
    Bool.and_false, Bool.or_self, hm, Nat.zero_mul, roundNearestEven_zero]

theorem mul_of_isZero_right (x y : Double) (hx : x.isFinite = true) (hy : y.isZero = true) :
    mul x y = zero (xor x.sign y.sign) := by
  have hyn := isNaN_of_isFinite y (isFinite_of_isZero y hy)
  have hyi := isInf_of_isFinite y (isFinite_of_isZero y hy)
  have hxn := isNaN_of_isFinite x hx
  have hxi := isInf_of_isFinite x hx
  have hm := (mag_eq_zero_iff y).2 hy
  simp only [mul, hxn, hyn, hxi, hyi, hy, Bool.false_eq_true, if_false, Bool.false_and,
    Bool.and_false, Bool.or_self, hm, Nat.mul_zero, roundNearestEven_zero]

theorem isZero_zero (s : Bool) : (zero s).isZero = true := by
  simp [zero, isZero]

theorem div_zero_zero (x y : Double) (hx : x.isZero = true) (hy : y.isZero = true) :
    div x y = defaultNaN := by
  have hxn := isNaN_of_isFinite x (isFinite_of_isZero x hx)
  have hyn := isNaN_of_isFinite y (isFinite_of_isZero y hy)
  simp only [div, hxn, hyn, hx, hy, Bool.false_eq_true, if_false, Bool.and_self,
    Bool.or_true, if_true]

theorem div_of_isZero_right (x y : Double) (hxn : x.isNaN = false) (hx : x.isZero = false)
    (hy : y.isZero = true) : div x y = inf (xor x.sign y.sign) := by
  have hyn := isNaN_of_isFinite y (isFinite_of_isZero y hy)
  have hyi := isInf_of_isFinite y (isFinite_of_isZero y hy)
  simp only [div, hxn, hyn, hx, hy, hyi, Bool.false_eq_true, if_false, Bool.and_false,
    Bool.false_and, Bool.or_self, Bool.or_true, if_true]

theorem div_of_isZero_left (x y : Double) (hx : x.isZero = true) (hyn : y.isNaN = false)
    (hy : y.isZero = false) : div x y = zero (xor x.sign y.sign) := by
  have hxn := isNaN_of_isFinite x (isFinite_of_isZero x hx)
  have hxi := isInf_of_isFinite x (isFinite_of_isZero x hx)
  have hm := (mag_eq_zero_iff x).2 hx
  simp only [div, hxn, hyn, hxi, hy, Bool.false_eq_true, if_false, Bool.false_and,
    Bool.and_false, Bool.or_self, hm, Nat.zero_mul, roundNearestEven_zero, ite_self]


theorem isNaN_inf (s : Bool) : (inf s).isNaN = false := by
  cases s <;> decide

theorem le_inf (x : Double) : le x (inf false) = !x.isNaN := by
  cases hn : x.isNaN
  · have hm := mag_le_of_not_isNaN x hn
    have hi : (inf false).toInt = ((2 ^ 2098 : Nat) : Int) := by
      simp only [toInt, mag_inf]
      rfl
    have hx : x.toInt ≤ (x.mag : Int) := by
      unfold toInt
      split <;> omega
    have : x.toInt ≤ (inf false).toInt := by
      rw [hi]
      exact le_trans hx (by exact_mod_cast hm)
    simp only [le, hn, isNaN_inf, this, Bool.not_false, Bool.and_self, decide_True]
  · simp only [le, hn, Bool.not_true, Bool.false_and]

theorem isZero_of_isNaN (x : Double) (h : x.isNaN = true) : x.isZero = false := by
  simp only [isNaN, Bool.and_eq_true, decide_eq_true_eq] at h
  simp only [isZero, Bool.and_eq_false_imp, decide_eq_true_eq]
  intro h0
  omega

theorem le_zero_of_abs (x : Double) (s : Bool) : le (abs x) (zero s) = x.isZero := by
  have hz := mag_eq_zero_iff x
  have ha : (abs x).toInt = (x.mag : Int) := rfl
  cases hn : x.isNaN
  · rw [Bool.eq_iff_iff, ← hz]
    simp only [le, isNaN_abs, hn, isNaN_zero, toInt_zero, ha, Bool.not_false,
      Bool.true_and, decide_eq_true_eq]
    omega
  · rw [isZero_of_isNaN x hn]
    simp only [le, isNaN_abs, hn, Bool.not_true, Bool.false_and]

theorem isZero_of_isInf (x : Double) (h : x.isInf = true) : x.isZero = false := by
  simp only [isInf, Bool.and_eq_true, decide_eq_true_eq] at h
  simp only [isZero, Bool.and_eq_false_imp, decide_eq_true_eq]
  intro h0
  omega

/-- The product of a positive double and a finite double that is at least
one: positive again, with the rounded (or infinite) magnitude. -/
theorem mul_pos_spec (v D : Double) (hv : lt (zero false) v = true)
    (hDf : D.isFinite = true) (hDs : D.sign = false) (hDm : 2 ^ 1074 ≤ D.mag) :
    (mul v D).isNaN = false ∧ (mul v D).sign = false ∧ (mul v D).isZero = false ∧
      (mul v D).mag =
        if v.isInf = true then 2 ^ 2098
        else min (roundMag (v.mag * D.mag) (2 ^ 1074)) (2 ^ 2098) := by
  obtain ⟨hvn, hvs, hvz, hvm⟩ := pos_mag v hv
  have hp : 0 < 2 ^ 1074 := by positivity
  have hDn := isNaN_of_isFinite D hDf
  have hDi := isInf_of_isFinite D hDf
  have hDz : D.isZero = false := by
    cases hz : D.isZero
    · rfl
    · have := (mag_eq_zero_iff D).2 hz
      omega
  cases hvi : v.isInf
  · have hspec := roundNearestEven_spec (xor v.sign D.sign) (v.mag * D.mag) (2 ^ 1074)
    have heq : mul v D = roundNearestEven (xor v.sign D.sign) (v.mag * D.mag) (2 ^ 1074) := by
      simp only [mul, hvn, hDn, hvi, hDi, hvz, hDz, Bool.false_eq_true, if_false,
        Bool.and_self, Bool.or_self]
    rw [heq]
    have hge : 1 ≤ min (roundMag (v.mag * D.mag) (2 ^ 1074)) (2 ^ 2098) := by
      apply Nat.le_min.2
      constructor
      · apply roundMag_pos _ _ hp
        calc 2 ^ 1074 ≤ D.mag := hDm
          _ ≤ v.mag * D.mag := Nat.le_mul_of_pos_left _ hvm
      · exact Nat.pos_of_ne_zero (by positivity)
    refine ⟨hspec.1, ?_, ?_, ?_⟩
    · rw [hspec.2.1, hvs, hDs]; rfl
    · cases hz : (roundNearestEven (xor v.sign D.sign) (v.mag * D.mag) (2 ^ 1074)).isZero
      · rfl
      · have := (mag_eq_zero_iff _).2 hz
        rw [hspec.2.2] at this
        omega
    · rw [hspec.2.2, if_neg Bool.false_ne_true]
  · have heq : mul v D = inf (xor v.sign D.sign) := by
      simp only [mul, hvn, hDn, hvi, hDi, hvz, hDz, Bool.false_eq_true, if_false,
        Bool.and_false, Bool.false_and, Bool.or_self, Bool.true_or, if_true]
    rw [heq, hvs, hDs]
    refine ⟨isNaN_inf _, rfl, by decide, ?_⟩
    rw [mag_inf, if_pos rfl]

end Double

/-! ## The claims -/

namespace Cfl

/-- C1: `operator()` returns the pair `(goal, accept)` of the spec's
algorithm: with `bound = s * σ * h / (v * d)`, the goal is
`copysign(bound, Δt_prev)` and the flag is `|Δt_prev| <= bound`. -/
theorem call_eq_spec (s σ h v Δt_prev : Double) (d : Nat) :
    (Cfl.ofSafetyFactor s).call ⟨d⟩ h ⟨σ⟩ v Δt_prev =
      (⟨specGoal (specBound s σ h v d) Δt_prev⟩, specAccept (specBound s σ h v d) Δt_prev) ∧
    (((Cfl.ofSafetyFactor s).call ⟨d⟩ h ⟨σ⟩ v Δt_prev).2 = true ↔
      Double.le (Double.abs Δt_prev) (specBound s σ h v d) = true) :=
  ⟨rfl, Iff.rfl⟩

/-- C4 as the code has it: the goal `operator()` returns carries the sign
bit of the previous step, whatever the computed step size is; for a positive
previous step the goal is never below zero and is above zero exactly when the
step size is a non-zero number (a zero step size gives `+0.0`, a NaN step
size a NaN), and symmetrically for a negative previous step. -/
theorem call_size_goal_sign (self : Cfl) (sys : System) (h : Double) (ts : TimeStepper)
    (v last : Double) :
    (self.call sys h ts v last).1.size_goal.sign = last.sign ∧
    (Double.lt (Double.zero false) last = true →
      Double.lt (self.call sys h ts v last).1.size_goal (Double.zero false) = false ∧
      Double.lt (Double.zero false) (self.call sys h ts v last).1.size_goal =
        (!(self.step_size sys h ts v).isNaN && !(self.step_size sys h ts v).isZero)) ∧
    (Double.lt last (Double.zero false) = true →
      Double.lt (Double.zero false) (self.call sys h ts v last).1.size_goal = false ∧
      Double.lt (self.call sys h ts v last).1.size_goal (Double.zero false) =
        (!(self.step_size sys h ts v).isNaN && !(self.step_size sys h ts v).isZero)) := by
  refine ⟨rfl, ?_, ?_⟩
  · intro hl
    obtain ⟨-, hs, -⟩ := (Double.zero_lt_iff last).1 hl
    constructor
    · cases hlt : Double.lt (self.call sys h ts v last).1.size_goal (Double.zero false)
      · rfl
      · have h2 := ((Double.lt_zero_iff _).1 hlt).2.1
        have h3 : (self.call sys h ts v last).1.size_goal.sign = last.sign := rfl
        rw [h3, hs] at h2
        cases h2
    · rw [Bool.eq_iff_iff, Double.zero_lt_iff]
      have h3 : (self.call sys h ts v last).1.size_goal.sign = last.sign := rfl
      have h4 : (self.call sys h ts v last).1.size_goal.isNaN =
          (self.step_size sys h ts v).isNaN := rfl
      have h5 : (self.call sys h ts v last).1.size_goal.isZero =
          (self.step_size sys h ts v).isZero := rfl
      rw [h3, h4, h5, hs]
      simp
  · intro hl
    obtain ⟨-, hs, -⟩ := (Double.lt_zero_iff last).1 hl
    constructor
    · cases hlt : Double.lt (Double.zero false) (self.call sys h ts v last).1.size_goal
      · rfl
      · have h2 := ((Double.zero_lt_iff _).1 hlt).2.1
        have h3 : (self.call sys h ts v last).1.size_goal.sign = last.sign := rfl
        rw [h3, hs] at h2
        cases h2
    · rw [Bool.eq_iff_iff, Double.lt_zero_iff]
      have h3 : (self.call sys h ts v last).1.size_goal.sign = last.sign := rfl
      have h4 : (self.call sys h ts v last).1.size_goal.isNaN =
          (self.step_size sys h ts v).isNaN := rfl
      have h5 : (self.call sys h ts v last).1.size_goal.isZero =
          (self.step_size sys h ts v).isZero := rfl
      rw [h3, h4, h5, hs]
      simp

/-- C9: when the computed step size is not below zero, `operator()` accepts
exactly when `|Δt_prev| <= |goal|`; when it is below zero, every step is
rejected although the goal has the magnitude of the step size. -/
theorem accept_iff_le_goal (self : Cfl) (sys : System) (h : Double) (ts : TimeStepper)
    (v last : Double) :
    (Double.le (Double.zero false) (self.step_size sys h ts v) = true →
      (self.call sys h ts v last).2 =
        Double.le (Double.abs last) (Double.abs (self.call sys h ts v last).1.size_goal)) ∧
    (Double.lt (self.step_size sys h ts v) (Double.zero false) = true →
      (self.call sys h ts v last).2 = false ∧
      Double.abs (self.call sys h ts v last).1.size_goal =
        Double.abs (self.step_size sys h ts v)) := by
  have habs : Double.abs (self.call sys h ts v last).1.size_goal =
      Double.abs (self.step_size sys h ts v) := rfl
  have hacc : (self.call sys h ts v last).2 =
      Double.le (Double.abs last) (self.step_size sys h ts v) := rfl
  constructor
  · intro h0
    obtain ⟨-, hs⟩ := (Double.zero_le_iff _).1 h0
    rw [habs, hacc]
    simp only [Double.le, Double.isNaN_abs]
    have : (Double.abs (self.step_size sys h ts v)).toInt = (self.step_size sys h ts v).toInt := by
      have hz := Double.mag_eq_zero_iff (self.step_size sys h ts v)
      simp only [Double.toInt, Double.mag_abs]
      rcases hs with hs | hs
      · rw [hs]; rfl
      · rw [hz.2 hs]; simp [Double.abs]
    rw [this]
  · intro h0
    obtain ⟨hn, hs, hz⟩ := (Double.lt_zero_iff _).1 h0
    refine ⟨?_, habs⟩
    rw [hacc]
    have hm : (self.step_size sys h ts v).mag ≠ 0 := by
      intro hm
      rw [(Double.mag_eq_zero_iff _).1 hm] at hz
      cases hz
    simp only [Double.le, Double.toInt, hs, if_true, Double.abs]
    simp only [Bool.and_eq_false_imp, Bool.and_eq_true, Bool.not_eq_true', decide_eq_false_iff_not]
    intro _
    have := Int.ofNat_nonneg ({ last with sign := false } : Double).mag
    simp only [Bool.false_eq_true, if_false]
    omega

/-- C10: evaluating `operator()` at the negated previous step negates the
goal and keeps the accept flag; the magnitude of the goal is that of the
step size, whatever the previous step, and the flag depends on the previous
step through its absolute value only. -/
theorem call_neg_last (self : Cfl) (sys : System) (h : Double) (ts : TimeStepper)
    (v last : Double) :
    self.call sys h ts v (Double.neg last) =
      (⟨Double.neg (self.call sys h ts v last).1.size_goal⟩, (self.call sys h ts v last).2) ∧
    Double.abs (self.call sys h ts v last).1.size_goal =
      Double.abs (self.step_size sys h ts v) ∧
    (∀ other : Double, Double.abs other = Double.abs last →
      (self.call sys h ts v other).2 = (self.call sys h ts v last).2 ∧
      Double.abs (self.call sys h ts v other).1.size_goal =
        Double.abs (self.call sys h ts v last).1.size_goal) := by
  refine ⟨rfl, rfl, ?_⟩
  intro other ho
  refine ⟨?_, rfl⟩
  show Double.le (Double.abs other) _ = Double.le (Double.abs last) _
  rw [ho]

/-- A chooser whose safety factor is a NaN returns a NaN goal and rejects. -/
theorem call_of_isNaN (self : Cfl) (hs : self.safety_factor_.isNaN = true) (sys : System)
    (h : Double) (ts : TimeStepper) (v last : Double) :
    (self.call sys h ts v last).1.size_goal.isNaN = true ∧
    (self.call sys h ts v last).1.size_goal.sign = last.sign ∧
    (self.call sys h ts v last).2 = false := by
  have h1 : (self.step_size sys h ts v).isNaN = true :=
    Double.isNaN_div_left _ _ (Double.isNaN_mul_left _ _ (Double.isNaN_mul_left _ _ hs))
  exact ⟨h1, rfl, Double.le_of_isNaN_right _ _ h1⟩

/-- With the invalid-operation exception masked, `operator()` on a
default-constructed chooser returns on every input: the goal is a NaN with
the sign bit of the previous step, and the flag is `false`. -/
theorem default_call_isNaN (sys : System) (h : Double) (ts : TimeStepper) (v last : Double) :
    Cfl.default.safety_factor_.isNaN = true ∧
    (Cfl.default.call sys h ts v last).1.size_goal.isNaN = true ∧
    (Cfl.default.call sys h ts v last).1.size_goal.sign = last.sign ∧
    (Cfl.default.call sys h ts v last).2 = false :=
  ⟨by decide, call_of_isNaN Cfl.default (by decide) sys h ts v last⟩

/-- The bytes `pup` packs are read back by `pup` into the same chooser, also
in the middle of a longer buffer. -/
theorem pup_unpack_pack (x other : Cfl) (before after : List Nat) :
    x.pup (.packer before) = some (.packer (before ++ x.safety_factor_.toBytes), x) ∧
    other.pup (.unpacker (x.safety_factor_.toBytes ++ after)) = some (.unpacker after, x) := by
  constructor
  · rfl
  · have hl := Double.toBytes_length x.safety_factor_
    simp only [pup, PUP.er.pipe, List.length_append, hl]
    rw [if_pos (by omega)]
    simp only [List.drop_left' hl, List.take_left' hl, Double.ofBytes_toBytes]

/-- C6: packing a configured chooser with `pup` and unpacking the bytes into
a chooser made by the migration constructor gives a chooser with the same
safety factor, hence with the same `operator()` on every input. -/
theorem restore_snapshot (s : Double) :
    ∃ y : Cfl, (snapshot (Cfl.ofSafetyFactor s)).bind restore = some y ∧
      y.safety_factor_ = s ∧
      ∀ (sys : System) (h : Double) (ts : TimeStepper) (v last : Double),
        y.call sys h ts v last = (Cfl.ofSafetyFactor s).call sys h ts v last := by
  refine ⟨Cfl.ofSafetyFactor s, ?_, rfl, fun _ _ _ _ _ => rfl⟩
  have h1 := (pup_unpack_pack (Cfl.ofSafetyFactor s) Cfl.migrate [] []).1
  have h2 := (pup_unpack_pack (Cfl.ofSafetyFactor s) Cfl.migrate [] []).2
  simp only [List.nil_append, List.append_nil] at h1 h2
  simp only [snapshot, h1, Option.some_bind, restore, h2]

/-- C2 as the code has it: at speed `+0.0` with a positive numerator
`s * σ * h`, `operator()` returns the goal `±infinity` (the result of the
division by zero, with the sign of the previous step) and accepts every
previous step that is a number; with a zero numerator the goal is a NaN and
the step is rejected. -/
theorem call_zero_speed (s σ h last : Double) (d : Nat) :
    (Double.lt (Double.zero false) (Double.mul (Double.mul s σ) h) = true →
      (Cfl.ofSafetyFactor s).call ⟨d⟩ h ⟨σ⟩ (Double.zero false) last =
        (⟨Double.inf last.sign⟩, !last.isNaN)) ∧
    ((Double.mul (Double.mul s σ) h).isZero = true →
      ((Cfl.ofSafetyFactor s).call ⟨d⟩ h ⟨σ⟩ (Double.zero false) last).1.size_goal.isNaN = true ∧
      ((Cfl.ofSafetyFactor s).call ⟨d⟩ h ⟨σ⟩ (Double.zero false) last).2 = false) := by
  obtain ⟨-, hDs, hDf, -⟩ := Double.ofSizeT_spec d
  have hw : Double.mul (Double.zero false) (Double.ofSizeT d) = Double.zero false := by
    rw [Double.mul_of_isZero_left _ _ (Double.isZero_zero _) hDf, hDs]
    rfl
  constructor
  · intro hnum
    obtain ⟨hn, hs, hz, -⟩ := Double.pos_mag _ hnum
    have hstep : (Cfl.ofSafetyFactor s).step_size ⟨d⟩ h ⟨σ⟩ (Double.zero false) =
        Double.inf false := by
      show Double.div (Double.mul (Double.mul s σ) h)
        (Double.mul (Double.zero false) (Double.ofSizeT d)) = _
      rw [hw, Double.div_of_isZero_right _ _ hn hz (Double.isZero_zero _), hs]
      rfl
    show ((⟨Double.copysign ((Cfl.ofSafetyFactor s).step_size ⟨d⟩ h ⟨σ⟩ (Double.zero false))
      last⟩ : TimeStepRequest), Double.le (Double.abs last)
      ((Cfl.ofSafetyFactor s).step_size ⟨d⟩ h ⟨σ⟩ (Double.zero false))) = _
    rw [hstep, Double.le_inf, Double.isNaN_abs]
    rfl
  · intro hnum
    have hstep : (Cfl.ofSafetyFactor s).step_size ⟨d⟩ h ⟨σ⟩ (Double.zero false) =
        Double.defaultNaN := by
      show Double.div (Double.mul (Double.mul s σ) h)
        (Double.mul (Double.zero false) (Double.ofSizeT d)) = _
      rw [hw, Double.div_zero_zero _ _ hnum (Double.isZero_zero _)]
    have hnan : ((Cfl.ofSafetyFactor s).step_size ⟨d⟩ h ⟨σ⟩ (Double.zero false)).isNaN = true := by
      rw [hstep]
      decide
    exact ⟨hnan, Double.le_of_isNaN_right _ _ hnan⟩

/-- C8 as the code has it: at grid spacing zero with a finite product
`s * σ`, a positive speed makes `operator()` return a goal of magnitude zero
(with the sign of the previous step) and accept only a zero previous step;
a zero speed makes the goal a NaN and the step rejected. -/
theorem call_zero_spacing (s σ h v last : Double) (d : Nat) (hd1 : 1 ≤ d) (hd2 : d < 2 ^ 64)
    (hh : h.isZero = true) (hp : (Double.mul s σ).isFinite = true) :
    (Double.lt (Double.zero false) v = true →
      ((Cfl.ofSafetyFactor s).call ⟨d⟩ h ⟨σ⟩ v last).1.size_goal.isZero = true ∧
      ((Cfl.ofSafetyFactor s).call ⟨d⟩ h ⟨σ⟩ v last).1.size_goal.sign = last.sign ∧
      ((Cfl.ofSafetyFactor s).call ⟨d⟩ h ⟨σ⟩ v last).2 = last.isZero) ∧
    (v.isZero = true →
      ((Cfl.ofSafetyFactor s).call ⟨d⟩ h ⟨σ⟩ v last).1.size_goal.isNaN = true ∧
      ((Cfl.ofSafetyFactor s).call ⟨d⟩ h ⟨σ⟩ v last).2 = false) := by
  obtain ⟨hDn, hDs, hDf, hDm⟩ := Double.ofSizeT_spec d
  have hnum := Double.mul_of_isZero_right _ _ hp hh
  constructor
  · intro hv
    obtain ⟨hwn, -, hwz, -⟩ := Double.mul_pos_spec v _ hv hDf hDs (hDm hd1 hd2)
    have hstep : (Cfl.ofSafetyFactor s).step_size ⟨d⟩ h ⟨σ⟩ v =
        Double.zero (xor (xor (Double.mul s σ).sign h.sign)
          (Double.mul v (Double.ofSizeT d)).sign) := by
      show Double.div (Double.mul (Double.mul s σ) h) (Double.mul v (Double.ofSizeT d)) = _
      rw [hnum, Double.div_of_isZero_left _ _ (Double.isZero_zero _) hwn hwz]
      rfl
    refine ⟨?_, rfl, ?_⟩
    · show ((Cfl.ofSafetyFactor s).step_size ⟨d⟩ h ⟨σ⟩ v).isZero = true
      rw [hstep]
      exact Double.isZero_zero _
    · show Double.le (Double.abs last) ((Cfl.ofSafetyFactor s).step_size ⟨d⟩ h ⟨σ⟩ v) = _
      rw [hstep]
      exact Double.le_zero_of_abs _ _
  · intro hv
    have hstep : (Cfl.ofSafetyFactor s).step_size ⟨d⟩ h ⟨σ⟩ v = Double.defaultNaN := by
      show Double.div (Double.mul (Double.mul s σ) h) (Double.mul v (Double.ofSizeT d)) = _
      rw [hnum, Double.mul_of_isZero_left _ _ hv hDf,
        Double.div_zero_zero _ _ (Double.isZero_zero _) (Double.isZero_zero _)]
    have hnan : ((Cfl.ofSafetyFactor s).step_size ⟨d⟩ h ⟨σ⟩ v).isNaN = true := by
      rw [hstep]
      decide
    exact ⟨hnan, Double.le_of_isNaN_right _ _ hnan⟩

/-- C2 fails as stated: with `s = σ = h = 1`, dimension 3 and speed `+0.0`,
the goal `operator()` returns is the infinity `1 / 0`, not a finite
sentinel. -/
theorem zero_speed_goal_isInf :
    ((Cfl.ofSafetyFactor (Double.ofNat 1)).call (NewtonianEuler.System 3) (Double.ofNat 1)
        ⟨Double.ofNat 1⟩ (Double.zero false) (Double.ofNat 1)).1.size_goal =
      Double.div (Double.ofNat 1) (Double.zero false) ∧
    ((Cfl.ofSafetyFactor (Double.ofNat 1)).call (NewtonianEuler.System 3) (Double.ofNat 1)
        ⟨Double.ofNat 1⟩ (Double.zero false) (Double.ofNat 1)).1.size_goal.isInf = true := by
  decide!

/-- The zero-speed statement at concrete inputs: numerator 1 for the
infinite goal, numerator 0 (safety factor zero) for the NaN goal. -/
theorem call_zero_speed_witness :
    (Cfl.ofSafetyFactor (Double.ofNat 1)).call ⟨3⟩ (Double.ofNat 1) ⟨Double.ofNat 1⟩
        (Double.zero false) (Double.ofNat 1) =
      (⟨Double.inf (Double.ofNat 1).sign⟩, !(Double.ofNat 1).isNaN) ∧
    (((Cfl.ofSafetyFactor (Double.zero false)).call ⟨3⟩ (Double.ofNat 1) ⟨Double.ofNat 1⟩
        (Double.zero false) (Double.ofNat 1)).1.size_goal.isNaN = true ∧
      ((Cfl.ofSafetyFactor (Double.zero false)).call ⟨3⟩ (Double.ofNat 1) ⟨Double.ofNat 1⟩
        (Double.zero false) (Double.ofNat 1)).2 = false) :=
  ⟨(call_zero_speed (Double.ofNat 1) (Double.ofNat 1) (Double.ofNat 1) (Double.ofNat 1) 3).1
      (by decide!),
    (call_zero_speed (Double.zero false) (Double.ofNat 1) (Double.ofNat 1) (Double.ofNat 1) 3).2
      (by decide!)⟩

/-- C4 fails as stated: with safety factor `0`, `σ = h = v = 1`, dimension 3
and the positive previous step `1`, the goal `operator()` returns is `+0.0`,
which is not above zero. -/
theorem zero_goal_not_positive :
    Double.lt (Double.zero false) (Double.ofNat 1) = true ∧
    ((Cfl.ofSafetyFactor (Double.zero false)).call (NewtonianEuler.System 3) (Double.ofNat 1)
        ⟨Double.ofNat 1⟩ (Double.ofNat 1) (Double.ofNat 1)).1.size_goal = Double.zero false ∧
    Double.lt (Double.zero false)
      ((Cfl.ofSafetyFactor (Double.zero false)).call (NewtonianEuler.System 3) (Double.ofNat 1)
        ⟨Double.ofNat 1⟩ (Double.ofNat 1) (Double.ofNat 1)).1.size_goal = false := by
  decide!

/-- C8 fails as stated: with `s = σ = v = 1`, dimension 3 and grid spacing
`+0.0`, the goal `operator()` returns has magnitude zero. -/
theorem zero_spacing_goal_isZero :
    ((Cfl.ofSafetyFactor (Double.ofNat 1)).call (NewtonianEuler.System 3) (Double.zero false)
        ⟨Double.ofNat 1⟩ (Double.ofNat 1) (Double.ofNat 1)).1.size_goal.isZero = true := by
  decide!

/-- The zero-spacing statement at concrete inputs: speed 1 for the zero
goal, speed 0 for the NaN goal. -/
theorem call_zero_spacing_witness :
    (((Cfl.ofSafetyFactor (Double.ofNat 1)).call ⟨3⟩ (Double.zero false) ⟨Double.ofNat 1⟩
        (Double.ofNat 1) (Double.ofNat 1)).1.size_goal.isZero = true ∧
      ((Cfl.ofSafetyFactor (Double.ofNat 1)).call ⟨3⟩ (Double.zero false) ⟨Double.ofNat 1⟩
        (Double.ofNat 1) (Double.ofNat 1)).1.size_goal.sign = (Double.ofNat 1).sign ∧
      ((Cfl.ofSafetyFactor (Double.ofNat 1)).call ⟨3⟩ (Double.zero false) ⟨Double.ofNat 1⟩
        (Double.ofNat 1) (Double.ofNat 1)).2 = (Double.ofNat 1).isZero) ∧
    (((Cfl.ofSafetyFactor (Double.ofNat 1)).call ⟨3⟩ (Double.zero false) ⟨Double.ofNat 1⟩
        (Double.zero false) (Double.ofNat 1)).1.size_goal.isNaN = true ∧
      ((Cfl.ofSafetyFactor (Double.ofNat 1)).call ⟨3⟩ (Double.zero false) ⟨Double.ofNat 1⟩
        (Double.zero false) (Double.ofNat 1)).2 = false) :=
  ⟨(call_zero_spacing (Double.ofNat 1) (Double.ofNat 1) (Double.zero false) (Double.ofNat 1)
      (Double.ofNat 1) 3 (by decide) (by decide) (by decide!) (by decide!)).1 (by decide!),
    (call_zero_spacing (Double.ofNat 1) (Double.ofNat 1) (Double.zero false) (Double.zero false)
      (Double.ofNat 1) 3 (by decide) (by decide) (by decide!) (by decide!)).2 (by decide!)⟩

/-- C7 fails as stated: in the scenario (`s = 0.5`, `σ = 0.9`, `h = 0.1`,
`v = 2.0`, `d = 3`) the step size `operator()` computes is not the double
`0.0075`. -/
theorem scenario_step_size_ne :
    (Cfl.ofSafetyFactor (Double.ofRatio 5 10)).step_size (NewtonianEuler.System 3)
        (Double.ofRatio 1 10) ⟨Double.ofRatio 9 10⟩ (Double.ofRatio 2 1) ≠
      Double.ofRatio 75 10000 := by
  decide!

/-- C7 as the code has it: in the scenario the step size is the double
`0x3F7EB851EB851EB9` (about `0.007500000000000001`), the next double above
`0.0075 = 0x3F7EB851EB851EB8`; with `Δt_prev = 0.01` the goal is that double,
positive like `Δt_prev`, and the step is rejected. -/
theorem scenario_call :
    (Cfl.ofSafetyFactor (Double.ofRatio 5 10)).step_size (NewtonianEuler.System 3)
        (Double.ofRatio 1 10) ⟨Double.ofRatio 9 10⟩ (Double.ofRatio 2 1) =
      Double.ofBits 0x3F7EB851EB851EB9 ∧
    Double.ofRatio 75 10000 = Double.ofBits 0x3F7EB851EB851EB8 ∧
    (Cfl.ofSafetyFactor (Double.ofRatio 5 10)).call (NewtonianEuler.System 3)
        (Double.ofRatio 1 10) ⟨Double.ofRatio 9 10⟩ (Double.ofRatio 2 1) (Double.ofRatio 1 100) =
      (⟨Double.ofBits 0x3F7EB851EB851EB9⟩, false) ∧
    (Double.ofBits 0x3F7EB851EB851EB9).sign = (Double.ofRatio 1 100).sign ∧
    Double.lt (Double.ofBits 0x3F7EB851EB851EB9) (Double.ofRatio 1 100) = true := by
  decide!

/-- The sign statement at concrete inputs: previous step `1`, then `-1`. -/
theorem call_size_goal_sign_witness :
    (Double.lt
        ((Cfl.ofSafetyFactor (Double.ofNat 1)).call ⟨3⟩ (Double.ofNat 1) ⟨Double.ofNat 1⟩
          (Double.ofNat 1) (Double.ofNat 1)).1.size_goal (Double.zero false) = false ∧
      Double.lt (Double.zero false)
        ((Cfl.ofSafetyFactor (Double.ofNat 1)).call ⟨3⟩ (Double.ofNat 1) ⟨Double.ofNat 1⟩
          (Double.ofNat 1) (Double.ofNat 1)).1.size_goal =
        (!((Cfl.ofSafetyFactor (Double.ofNat 1)).step_size ⟨3⟩ (Double.ofNat 1)
            ⟨Double.ofNat 1⟩ (Double.ofNat 1)).isNaN &&
          !((Cfl.ofSafetyFactor (Double.ofNat 1)).step_size ⟨3⟩ (Double.ofNat 1)
            ⟨Double.ofNat 1⟩ (Double.ofNat 1)).isZero)) ∧
    (Double.lt (Double.zero false)
        ((Cfl.ofSafetyFactor (Double.ofNat 1)).call ⟨3⟩ (Double.ofNat 1) ⟨Double.ofNat 1⟩
          (Double.ofNat 1) (Double.neg (Double.ofNat 1))).1.size_goal = false ∧
      Double.lt
        ((Cfl.ofSafetyFactor (Double.ofNat 1)).call ⟨3⟩ (Double.ofNat 1) ⟨Double.ofNat 1⟩
          (Double.ofNat 1) (Double.neg (Double.ofNat 1))).1.size_goal (Double.zero false) =
        (!((Cfl.ofSafetyFactor (Double.ofNat 1)).step_size ⟨3⟩ (Double.ofNat 1)
            ⟨Double.ofNat 1⟩ (Double.ofNat 1)).isNaN &&
          !((Cfl.ofSafetyFactor (Double.ofNat 1)).step_size ⟨3⟩ (Double.ofNat 1)
            ⟨Double.ofNat 1⟩ (Double.ofNat 1)).isZero)) :=
  ⟨(call_size_goal_sign (Cfl.ofSafetyFactor (Double.ofNat 1)) ⟨3⟩ (Double.ofNat 1)
      ⟨Double.ofNat 1⟩ (Double.ofNat 1) (Double.ofNat 1)).2.1 (by decide!),
    (call_size_goal_sign (Cfl.ofSafetyFactor (Double.ofNat 1)) ⟨3⟩ (Double.ofNat 1)
      ⟨Double.ofNat 1⟩ (Double.ofNat 1) (Double.neg (Double.ofNat 1))).2.2 (by decide!)⟩

/-- The acceptance statement at concrete inputs: speed `1` for a step size
above zero, speed `-1` for a step size below zero. -/
theorem accept_iff_le_goal_witness :
    ((Cfl.ofSafetyFactor (Double.ofNat 1)).call ⟨3⟩ (Double.ofNat 1) ⟨Double.ofNat 1⟩
        (Double.ofNat 1) (Double.ofNat 1)).2 =
      Double.le (Double.abs (Double.ofNat 1))
        (Double.abs ((Cfl.ofSafetyFactor (Double.ofNat 1)).call ⟨3⟩ (Double.ofNat 1)
          ⟨Double.ofNat 1⟩ (Double.ofNat 1) (Double.ofNat 1)).1.size_goal) ∧
    (((Cfl.ofSafetyFactor (Double.ofNat 1)).call ⟨3⟩ (Double.ofNat 1) ⟨Double.ofNat 1⟩
        (Double.neg (Double.ofNat 1)) (Double.ofNat 1)).2 = false ∧
      Double.abs ((Cfl.ofSafetyFactor (Double.ofNat 1)).call ⟨3⟩ (Double.ofNat 1)
          ⟨Double.ofNat 1⟩ (Double.neg (Double.ofNat 1)) (Double.ofNat 1)).1.size_goal =
        Double.abs ((Cfl.ofSafetyFactor (Double.ofNat 1)).step_size ⟨3⟩ (Double.ofNat 1)
          ⟨Double.ofNat 1⟩ (Double.neg (Double.ofNat 1)))) :=
  ⟨(accept_iff_le_goal (Cfl.ofSafetyFactor (Double.ofNat 1)) ⟨3⟩ (Double.ofNat 1)
      ⟨Double.ofNat 1⟩ (Double.ofNat 1) (Double.ofNat 1)).1 (by decide!),
    (accept_iff_le_goal (Cfl.ofSafetyFactor (Double.ofNat 1)) ⟨3⟩ (Double.ofNat 1)
      ⟨Double.ofNat 1⟩ (Double.neg (Double.ofNat 1)) (Double.ofNat 1)).2 (by decide!)⟩

/-- The time-reversal statement at concrete inputs: the previous steps `-1`
and `1` have the same absolute value. -/
theorem call_neg_last_witness :
    ((Cfl.ofSafetyFactor (Double.ofNat 1)).call ⟨3⟩ (Double.ofNat 1) ⟨Double.ofNat 1⟩
        (Double.ofNat 1) (Double.neg (Double.ofNat 1))).2 =
      ((Cfl.ofSafetyFactor (Double.ofNat 1)).call ⟨3⟩ (Double.ofNat 1) ⟨Double.ofNat 1⟩
        (Double.ofNat 1) (Double.ofNat 1)).2 ∧
    Double.abs ((Cfl.ofSafetyFactor (Double.ofNat 1)).call ⟨3⟩ (Double.ofNat 1)
        ⟨Double.ofNat 1⟩ (Double.ofNat 1) (Double.neg (Double.ofNat 1))).1.size_goal =
      Double.abs ((Cfl.ofSafetyFactor (Double.ofNat 1)).call ⟨3⟩ (Double.ofNat 1)
        ⟨Double.ofNat 1⟩ (Double.ofNat 1) (Double.ofNat 1)).1.size_goal :=
  (call_neg_last (Cfl.ofSafetyFactor (Double.ofNat 1)) ⟨3⟩ (Double.ofNat 1) ⟨Double.ofNat 1⟩
    (Double.ofNat 1) (Double.ofNat 1)).2.2 (Double.neg (Double.ofNat 1)) (Double.abs_neg _)

end Cfl

end Spectre
